import Mathlib

/-!
Verification of the minimal-diff computation engine and the debounced
semantic-classification pipeline of the model service.

Text content is modelled line-based: a line is a list of characters that
never contains the line terminator, and a document is a nonempty list of
lines.  JS strings become `List Char`, 1-based line/column indexing is kept
exactly as in the source.
-/

namespace ModelService

abbrev Line := List Char

/-- The single end-of-line character used by the staged replacement buffer
in this model (the buffer joins lines with its terminator; the diff text is
taken verbatim from the buffer, terminators included). -/
def NL : Char := '\n'

/-- 1-based line access, mirroring `getLineContent(lineNumber)`. -/
def getLineContent (ls : List Line) (n : Nat) : Line := ls.getD (n - 1) []

/-- Mirrors `getLineLength(lineNumber)` of the replacement buffer. -/
def getLineLength (ls : List Line) (n : Nat) : Nat := (getLineContent ls n).length

/-- Mirrors `model.getLineMaxColumn(lineNumber)`: one past the last column. -/
def getLineMaxColumn (ls : List Line) (n : Nat) : Nat := getLineLength ls n + 1

/-- Join lines with the terminator: the full text of a document. -/
def joinLines : List Line → List Char
  | [] => []
  | [l] => l
  | l :: l2 :: ls => l ++ NL :: joinLines (l2 :: ls)

/-- Split a text on the terminator back into lines. -/
def splitLines : List Char → List Line
  | [] => [[]]
  | c :: cs =>
    if c = NL then [] :: splitLines cs
    else
      match splitLines cs with
      | l :: ls => (c :: l) :: ls
      | [] => [[c]]

/-- A line/column range, 1-based on both coordinates, as in `core/range`. -/
structure Range where
  startLineNumber : Nat
  startColumn : Nat
  endLineNumber : Nat
  endColumn : Nat
deriving DecidableEq, Repr

/-- A single replace edit, as built by `EditOperation.replaceMove`. -/
structure EditOp where
  range : Range
  text : List Char
deriving DecidableEq, Repr

/-- Modelled from the spec: the text buffer capability
`getValueInRange(range, eolPreference)` (document storage is an external
collaborator, §6); the value of the buffer over a 1-based line/column range,
with the end-of-line sequence taken verbatim from the buffer (`NL` here). -/
def getValueInRange (ls : List Line) (r : Range) : List Char :=
  if r.startLineNumber = r.endLineNumber then
    ((getLineContent ls r.startLineNumber).take (r.endColumn - 1)).drop (r.startColumn - 1)
  else
    joinLines ((getLineContent ls r.startLineNumber).drop (r.startColumn - 1) ::
      ((ls.drop r.startLineNumber).take (r.endLineNumber - 1 - r.startLineNumber) ++
        [(getLineContent ls r.endLineNumber).take (r.endColumn - 1)]))

/-- Modelled from the spec: applying one replace edit to a document (the
edit-apply capability of document storage, §6 / §3 "Edit Operation"): the
text of the half-open range is replaced by the edit text and the result is
re-split into lines. -/
def applyEdit (ls : List Line) (e : EditOp) : List Line :=
  ls.take (e.range.startLineNumber - 1) ++
    splitLines ((getLineContent ls e.range.startLineNumber).take (e.range.startColumn - 1)
      ++ e.text
      ++ (getLineContent ls e.range.endLineNumber).drop (e.range.endColumn - 1)) ++
    ls.drop e.range.endLineNumber

/-- Apply a list of edits in order. -/
def applyEdits (ls : List Line) (es : List EditOp) : List Line :=
  es.foldl applyEdit ls

/-- The loop body of `ModelServiceImpl._commonPrefix`: starting at loop
counter `i` with `fuel` iterations left, count matching lines. -/
def commonPrefixAux (a b : List Line) (aDelta bDelta : Nat) : Nat → Nat → Nat
  | 0, _ => 0
  | fuel + 1, i =>
    if getLineContent a (aDelta + i) = getLineContent b (bDelta + i) then
      commonPrefixAux a b aDelta bDelta fuel (i + 1) + 1
    else 0

/-- `ModelServiceImpl._commonPrefix(a, aLen, aDelta, b, bLen, bDelta)`. -/
def commonPrefixFn (a : List Line) (aLen aDelta : Nat) (b : List Line) (bLen bDelta : Nat) : Nat :=
  commonPrefixAux a b aDelta bDelta (min aLen bLen) 0

/-- The loop body of `ModelServiceImpl._commonSuffix`. -/
def commonSuffixAux (a b : List Line) (aLen aDelta bLen bDelta : Nat) : Nat → Nat → Nat
  | 0, _ => 0
  | fuel + 1, i =>
    if getLineContent a (aDelta + aLen - i) = getLineContent b (bDelta + bLen - i) then
      commonSuffixAux a b aLen aDelta bLen bDelta fuel (i + 1) + 1
    else 0

/-- `ModelServiceImpl._commonSuffix(a, aLen, aDelta, b, bLen, bDelta)`. -/
def commonSuffixFn (a : List Line) (aLen aDelta : Nat) (b : List Line) (bLen bDelta : Nat) : Nat :=
  commonSuffixAux a b aLen aDelta bLen bDelta (min aLen bLen) 0

/-- The common-prefix count exactly as `_computeEdits` computes it. -/
def commonPrefixLines (model buffer : List Line) : Nat :=
  commonPrefixFn model model.length 1 buffer buffer.length 1

/-- The common-suffix count exactly as `_computeEdits` computes it (on the
remainders after removing the common prefix). -/
def commonSuffixLines (model buffer : List Line) : Nat :=
  commonSuffixFn model (model.length - commonPrefixLines model buffer) (commonPrefixLines model buffer)
    buffer (buffer.length - commonPrefixLines model buffer) (commonPrefixLines model buffer)

/-- `ModelServiceImpl._computeEdits(model, textBuffer)`: the minimal replace
edit bringing `model` to the state of `buffer`. -/
def computeEdits (model buffer : List Line) : List EditOp :=
  if model.length = buffer.length ∧ commonPrefixLines model buffer = model.length then
    []
  else if 0 < commonSuffixLines model buffer then
    [{ range := ⟨commonPrefixLines model buffer + 1, 1,
                 model.length - commonSuffixLines model buffer + 1, 1⟩,
       text := getValueInRange buffer ⟨commonPrefixLines model buffer + 1, 1,
                 buffer.length - commonSuffixLines model buffer + 1, 1⟩ }]
  else if 0 < commonPrefixLines model buffer then
    [{ range := ⟨commonPrefixLines model buffer,
                 getLineMaxColumn model (commonPrefixLines model buffer),
                 model.length, getLineMaxColumn model model.length⟩,
       text := getValueInRange buffer ⟨commonPrefixLines model buffer,
                 1 + getLineLength buffer (commonPrefixLines model buffer),
                 buffer.length, 1 + getLineLength buffer buffer.length⟩ }]
  else
    [{ range := ⟨1, 1, model.length, getLineMaxColumn model model.length⟩,
       text := getValueInRange buffer ⟨1, 1, buffer.length,
                 1 + getLineLength buffer buffer.length⟩ }]

/-! ### Text model with undo groups and change notifications

`updateModel` (the bulk-replace entry point) drives external `TextModel`
operations; those collaborators are modelled from the spec below. -/

/-- An end-of-line sequence, as in `EndOfLineSequence`. -/
inductive EOLSeq where
  | LF
  | CRLF
deriving DecidableEq, Repr

/-- A marker for an operation pushed onto the undo stack inside an edit
group: an end-of-line change or a content edit. -/
inductive POp where
  | eolChange
  | editOp
deriving DecidableEq, Repr

/-- The observable state of a text model: its lines, terminator, undo stack
(closed elements plus the currently open element), and a count of
content-change notifications fired. -/
structure TM where
  lines : List Line
  eol : EOLSeq
  closedGroups : List (List POp)
  openGroup : List POp
  notifications : Nat
deriving DecidableEq, Repr

/-- Modelled from the spec: `model.pushStackElement()` (undo stack is an
external collaborator): closes the currently open undo element, if any. -/
def pushStackElement (m : TM) : TM :=
  if m.openGroup.isEmpty then m
  else { m with closedGroups := m.closedGroups ++ [m.openGroup], openGroup := [] }

/-- Modelled from the spec: `model.pushEOL(eol)` — pushes an end-of-line
change and fires a content-change notification only when the terminator
actually differs. -/
def pushEOL (m : TM) (e : EOLSeq) : TM :=
  if m.eol = e then m
  else { m with eol := e, openGroup := m.openGroup ++ [POp.eolChange],
                notifications := m.notifications + 1 }

/-- Modelled from the spec: `model.pushEditOperations([], edits, ...)` —
applies the edits as one batch, pushing one undo operation and firing one
content-change notification when the batch is nonempty. -/
def pushEditOperations (m : TM) (edits : List EditOp) : TM :=
  if edits.isEmpty then m
  else { m with lines := applyEdits m.lines edits,
                openGroup := m.openGroup ++ [POp.editOp],
                notifications := m.notifications + 1 }

/-- `ModelServiceImpl.updateModel(model, value)` after the staging buffer is
built: if the staging buffer is content-equal to the document, return
early; otherwise push a stack element, push the buffer terminator, push the
diff engine's edits, and push a closing stack element. -/
def updateModel (m : TM) (newLines : List Line) (newEol : EOLSeq) : TM :=
  if m.lines = newLines ∧ m.eol = newEol then m
  else
    pushStackElement
      (pushEditOperations
        (pushEOL (pushStackElement m) newEol)
        (computeEdits (pushEOL (pushStackElement m) newEol).lines newLines))

/-! ### Token decoding (`ModelSemanticColoring._setSemanticTokens`) -/

/-- A provider legend: ordered token-type and token-modifier names. -/
structure SemanticColoringLegend where
  tokenTypes : List String
  tokenModifiers : List String

/-- The modifier-bitset expansion loop: iterate from bit 0 upward, only
while the remaining set is nonzero and names remain in the legend.  The
source shifts with `tokenModifierSet >> 1`; modifier sets are small
nonnegative values, so the shift is division by two. -/
def expandModifiersAux : List String → Nat → List String
  | _, 0 => []
  | [], _ => []
  | name :: rest, set =>
    if set % 2 = 1 then name :: expandModifiersAux rest (set / 2)
    else expandModifiersAux rest (set / 2)

/-- The decode loop of `_setSemanticTokens` over one area's raw data: each
5-field tuple `(deltaLine, startCharacter, endCharacter, tokenTypeIndex,
tokenModifierSet)` resolves its type via the legend and its style via the
theme; resolved tuples emit 4 fields, unresolved tuples are dropped and the
output stays dense (the source compacts with `subarray`).  A trailing
partial tuple is ignored (`tokenCount = length / 5`). -/
def decodeTokens (legend : SemanticColoringLegend)
    (theme : Option String → List String → Option Nat) : List Nat → List Nat
  | deltaLine :: startCharacter :: endCharacter :: tokenTypeIndex :: tokenModifierSet :: rest =>
    let tokenType := legend.tokenTypes[tokenTypeIndex]?
    let tokenModifiers := expandModifiersAux legend.tokenModifiers tokenModifierSet
    match theme tokenType tokenModifiers with
    | some metadata =>
      deltaLine :: startCharacter :: endCharacter :: metadata ::
        decodeTokens legend theme rest
    | none => decodeTokens legend theme rest
  | _ => []

/-- A raw 5-field tuple (spec view of the quantized token stream). -/
structure Tok5 where
  deltaLine : Nat
  startChar : Nat
  endChar : Nat
  typeIdx : Nat
  modSet : Nat
deriving DecidableEq, Repr

/-- Spec-side view: the raw data regrouped into 5-field tuples (a trailing
partial tuple is dropped, as the source's `length / 5` does). -/
def chunks5 : List Nat → List Tok5
  | dl :: sc :: ec :: tt :: tm :: rest => ⟨dl, sc, ec, tt, tm⟩ :: chunks5 rest
  | _ => []

/-- Spec-side view: the style resolution of one tuple — legend lookup of the
type name, bitset expansion of the modifiers, then the theme resolver. -/
def resolveTok (legend : SemanticColoringLegend)
    (theme : Option String → List String → Option Nat) (t : Tok5) : Option Nat :=
  theme legend.tokenTypes[t.typeIdx]? (expandModifiersAux legend.tokenModifiers t.modSet)

/-! ### The classification scheduler (`ModelSemanticColoring`) -/

/-- One range/text change of a content-change event. -/
structure SingleChange where
  range : Range
  text : List Char
deriving DecidableEq, Repr

/-- A content-change event (`IModelContentChangedEvent`): a batch of single
changes. -/
structure ChangeEvent where
  changes : List SingleChange
deriving DecidableEq, Repr

/-- One area of a raw provider response (`SemanticColoring.areas`). -/
structure RawArea where
  line : Nat
  data : List Nat
deriving DecidableEq, Repr

/-- One decoded area (`MultilineTokens2`): a start line plus the dense
4-field token array. -/
structure DecArea where
  line : Nat
  tokens : List Nat
deriving DecidableEq, Repr

/-- Map a function over the 4-field groups of a dense token array. -/
def mapTokens4 (f : Nat → Nat → Nat → Nat → Nat × Nat × Nat × Nat) : List Nat → List Nat
  | dl :: sc :: ec :: md :: rest =>
    let r := f dl sc ec md
    r.1 :: r.2.1 :: r.2.2.1 :: r.2.2.2 :: mapTokens4 f rest
  | other => other

/-- Modelled from the spec: `MultilineTokens2.applyEdit(range, text)` (the
token store lives outside these sources).  The spec requires each
accumulated edit to be applied to the decoded area's coordinate space
"using the same range/text edit semantics as the diff engine's edit
operations", and pins down the single-line case: start/end columns at or
after the edit position shift by the inserted length minus the deleted
length.  Multi-line adjustments are not pinned down by the spec and are
left untouched here; the claims exercise only the single-line case. -/
def specAreaApplyEdit (area : DecArea) (r : Range) (text : List Char) : DecArea :=
  if r.startLineNumber = r.endLineNumber ∧ NL ∉ text then
    { area with tokens := mapTokens4 (fun dl sc ec md =>
        if area.line + dl = r.startLineNumber then
          (dl,
           (if r.startColumn - 1 ≤ sc then sc + text.length - (r.endColumn - r.startColumn) else sc),
           (if r.startColumn - 1 ≤ ec then ec + text.length - (r.endColumn - r.startColumn) else ec),
           md)
        else (dl, sc, ec, md)) area.tokens }
  else area

/-- The external collaborators a scheduler instance reads: the provider's
legend, the theme resolver, and the token store's edit adjustment. -/
structure SchedCtx where
  legend : SemanticColoringLegend
  theme : Option String → List String → Option Nat
  applyAreaEdit : DecArea → Range → List Char → DecArea

/-- The state of one `ModelSemanticColoring` instance, with ghost counters
(started provider calls, logged errors, released responses, disposed
incoming results, cancellations) and the log of writes to the document's
semantic-token store. -/
structure SchedState where
  isDisposed : Bool
  hasProvider : Bool
  timerArmed : Bool
  cts : Bool
  outstanding : Nat
  pending : List ChangeEvent
  currentResponse : Option (List RawArea)
  modelWrites : List (Option (List DecArea))
  startedCalls : Nat
  errorsLogged : Nat
  responsesReleased : Nat
  tokensDisposed : Nat
  cancellations : Nat
deriving DecidableEq, Repr

/-- The events a scheduler instance reacts to.  `debounceElapse` is the
`RunOnceScheduler` firing; `responseArrive`/`responseError` are the provider
promise settling (with `none` for a null/absent result). -/
inductive SchedEvent where
  | contentChange (c : ChangeEvent)
  | registryChange (hasProvider : Bool)
  | themeChange
  | debounceElapse
  | responseArrive (res : Option (List RawArea))
  | responseError
  | dispose
deriving DecidableEq, Repr

/-- `ModelSemanticColoring._setSemanticTokens(tokens, legend, pendingChanges)`:
release the stored response; bail out (disposing the incoming result) when
disposed; store the incoming response; on a null response clear the
document's token store; otherwise decode each area, replay every pending
change over every decoded area in observed order, re-arm the scheduler if
changes were pending, and write the result to the token store. -/
def setSemanticTokens (ctx : SchedCtx) (s : SchedState) (tokens : Option (List RawArea))
    (pendingChanges : List ChangeEvent) : SchedState :=
  let s1 :=
    match s.currentResponse with
    | some _ => { s with currentResponse := none,
                         responsesReleased := s.responsesReleased + 1 }
    | none => s
  if s1.isDisposed then
    match tokens with
    | some _ => { s1 with tokensDisposed := s1.tokensDisposed + 1 }
    | none => s1
  else
    match tokens with
    | none => { s1 with currentResponse := none, modelWrites := s1.modelWrites ++ [none] }
    | some areas =>
      let s2 := { s1 with currentResponse := some areas }
      let decoded := areas.map (fun a => DecArea.mk a.line (decodeTokens ctx.legend ctx.theme a.data))
      let result := pendingChanges.foldl
        (fun res change => res.map (fun area =>
          change.changes.foldl (fun ar sc => ctx.applyAreaEdit ar sc.range sc.text) area))
        decoded
      let s3 := if 0 < pendingChanges.length then { s2 with timerArmed := true } else s2
      { s3 with modelWrites := s3.modelWrites ++ [some result] }

/-- `ModelSemanticColoring._fetchSemanticTokensNow()`: if a request is
already running, let it finish; if no provider applies, stay idle; else
open a cancellation source, start accumulating content changes afresh, and
invoke the provider. -/
def fetchSemanticTokensNow (s : SchedState) : SchedState :=
  if s.cts then s
  else if !s.hasProvider then s
  else { s with cts := true, outstanding := s.outstanding + 1,
                startedCalls := s.startedCalls + 1, pending := [] }

/-- One reaction of a scheduler instance to an event.  Constructor-registered
listeners (content change, registry change, theme change, the
`RunOnceScheduler`) are dead after disposal; the per-request content-change
listener lives until the request settles, so it accumulates edits exactly
while a call is outstanding. -/
def step (ctx : SchedCtx) (s : SchedState) : SchedEvent → SchedState
  | SchedEvent.contentChange c =>
    let s1 := if 1 ≤ s.outstanding then { s with pending := s.pending ++ [c] } else s
    if s1.isDisposed then s1 else { s1 with timerArmed := true }
  | SchedEvent.registryChange b =>
    if s.isDisposed then s else { s with hasProvider := b, timerArmed := true }
  | SchedEvent.themeChange =>
    if s.isDisposed then s else { s with timerArmed := true }
  | SchedEvent.debounceElapse =>
    if s.isDisposed || !s.timerArmed then s
    else fetchSemanticTokensNow { s with timerArmed := false }
  | SchedEvent.responseArrive res =>
    let s1 := { s with cts := false, outstanding := s.outstanding - 1 }
    setSemanticTokens ctx s1 res s1.pending
  | SchedEvent.responseError =>
    let s0 := { s with errorsLogged := s.errorsLogged + 1 }
    let s1 := { s0 with cts := false, outstanding := s0.outstanding - 1 }
    setSemanticTokens ctx s1 none s1.pending
  | SchedEvent.dispose =>
    let s1 := { s with isDisposed := true }
    let s2 :=
      match s1.currentResponse with
      | some _ => { s1 with currentResponse := none,
                            responsesReleased := s1.responsesReleased + 1 }
      | none => s1
    if s2.cts then { s2 with cts := false, cancellations := s2.cancellations + 1 } else s2

/-- Run a scheduler instance over a list of events. -/
def run (ctx : SchedCtx) (s : SchedState) (evs : List SchedEvent) : SchedState :=
  evs.foldl (step ctx) s

/-- The state right after construction: nothing outstanding, and the
constructor's `this._fetchSemanticTokens.schedule(0)` has armed the timer. -/
def initState (hasProvider : Bool) : SchedState :=
  { isDisposed := false, hasProvider := hasProvider, timerArmed := true, cts := false,
    outstanding := 0, pending := [], currentResponse := none, modelWrites := [],
    startedCalls := 0, errorsLogged := 0, responsesReleased := 0, tokensDisposed := 0,
    cancellations := 0 }

/-- The request-lifecycle invariant: never more than one outstanding provider
call, and (while live) the cancellation source is present exactly while a
call is outstanding. -/
def SchedInv (s : SchedState) : Prop :=
  s.outstanding ≤ 1 ∧ (s.cts = true → s.outstanding = 1) ∧
    (s.isDisposed = false → s.outstanding = 1 → s.cts = true)

/-! ### Concrete instances used by witnesses and counterexamples -/

/-- A trivial collaborator context (theme resolves nothing). -/
def ctxTriv : SchedCtx :=
  { legend := ⟨[], []⟩, theme := fun _ _ => none, applyAreaEdit := specAreaApplyEdit }

/-- The collaborator context of the spec's reconcile example: every style
resolves to metadata 77, token-store adjustment as the spec pins it down. -/
def ctxShift : SchedCtx :=
  { legend := ⟨["t"], []⟩, theme := fun _ _ => some 77, applyAreaEdit := specAreaApplyEdit }

/-- A theme resolver that resolves exactly ("comment", ["readonly"]). -/
def themeYes : Option String → List String → Option Nat :=
  fun t ms => if t = some "comment" ∧ ms = ["readonly"] then some 7 else none

/-- A theme resolver that resolves nothing. -/
def themeNo : Option String → List String → Option Nat := fun _ _ => none

/-- A concrete content-change event: prepend "X" at line 1, column 1. -/
def prependX : ChangeEvent := ⟨[⟨⟨1, 1, 1, 1⟩, ['X']⟩]⟩

/-- A live scheduler state holding a stored response with a request in
flight. -/
def respState : SchedState :=
  { initState true with currentResponse := some [], cts := true, outstanding := 1 }

end ModelService

namespace ModelService

/-! Basic lemmas about the text primitives. -/

theorem joinLines_cons_cons (l l2 : Line) (ls : List Line) :
    joinLines (l :: l2 :: ls) = l ++ NL :: joinLines (l2 :: ls) := rfl

theorem splitLines_no_nl (x : Line) (h : NL ∉ x) : splitLines x = [x] := by
  induction x with
  | nil => rfl
  | cons c cs ih =>
    have hc : c ≠ NL := fun hcn => h (hcn ▸ List.mem_cons_self c cs)
    have hcs : NL ∉ cs := fun hm => h (List.mem_cons_of_mem c hm)
    simp only [splitLines, if_neg hc, ih hcs]

theorem splitLines_nl_cons (x : Line) (t : List Char) (h : NL ∉ x) :
    splitLines (x ++ NL :: t) = x :: splitLines t := by
  induction x with
  | nil => simp [splitLines]
  | cons c cs ih =>
    have hc : c ≠ NL := fun hcn => h (hcn ▸ List.mem_cons_self c cs)
    have hcs : NL ∉ cs := fun hm => h (List.mem_cons_of_mem c hm)
    simp only [List.cons_append, splitLines, if_neg hc]
    rw [show cs.append (NL :: t) = cs ++ NL :: t from rfl, ih hcs]

theorem splitLines_joinLines (ls : List Line) (h1 : ls ≠ []) (h2 : ∀ l ∈ ls, NL ∉ l) :
    splitLines (joinLines ls) = ls := by
  induction ls with
  | nil => exact absurd rfl h1
  | cons l rest ih =>
    cases rest with
    | nil =>
      have : NL ∉ l := h2 l (List.mem_cons_self l [])
      simpa [joinLines] using splitLines_no_nl l this
    | cons l2 rest2 =>
      have hl : NL ∉ l := h2 l (List.mem_cons_self _ _)
      rw [joinLines_cons_cons, splitLines_nl_cons l _ hl,
        ih (by simp) (fun x hx => h2 x (List.mem_cons_of_mem l hx))]

theorem joinLines_append_singleton (K : List Line) (x : Line) (h : K ≠ []) :
    joinLines (K ++ [x]) = joinLines K ++ NL :: x := by
  induction K with
  | nil => exact absurd rfl h
  | cons k rest ih =>
    cases rest with
    | nil => simp [joinLines]
    | cons k2 rest2 =>
      rw [List.cons_append, joinLines_cons_cons]
      rw [show (k2 :: rest2) ++ [x] = k2 :: (rest2 ++ [x]) from rfl] at *
      rw [joinLines_cons_cons, ih (by simp)]
      simp

/-! Index facts about the prefix/suffix scans. -/

theorem commonPrefixAux_le (a b : List Line) (da db : Nat) :
    ∀ fuel i, commonPrefixAux a b da db fuel i ≤ fuel := by
  intro fuel
  induction fuel with
  | zero => intro i; simp [commonPrefixAux]
  | succ n ih =>
    intro i
    simp only [commonPrefixAux]
    split
    · exact Nat.succ_le_succ (ih (i + 1))
    · exact Nat.zero_le _

theorem commonPrefixAux_spec (a b : List Line) (da db : Nat) :
    ∀ fuel i j, j < commonPrefixAux a b da db fuel i →
      getLineContent a (da + (i + j)) = getLineContent b (db + (i + j)) := by
  intro fuel
  induction fuel with
  | zero => intro i j hj; simp [commonPrefixAux] at hj
  | succ n ih =>
    intro i j hj
    simp only [commonPrefixAux] at hj
    split at hj
    · rename_i heq
      cases j with
      | zero => simpa using heq
      | succ j2 =>
        have := ih (i + 1) j2 (by omega)
        have harith : i + 1 + j2 = i + (j2 + 1) := by omega
        rwa [harith] at this
    · omega

theorem commonPrefixAux_self (a : List Line) (d : Nat) :
    ∀ fuel i, commonPrefixAux a a d d fuel i = fuel := by
  intro fuel
  induction fuel with
  | zero => intro i; rfl
  | succ n ih => intro i; simp [commonPrefixAux, ih]

theorem commonSuffixAux_le (a b : List Line) (aLen da bLen db : Nat) :
    ∀ fuel i, commonSuffixAux a b aLen da bLen db fuel i ≤ fuel := by
  intro fuel
  induction fuel with
  | zero => intro i; simp [commonSuffixAux]
  | succ n ih =>
    intro i
    simp only [commonSuffixAux]
    split
    · exact Nat.succ_le_succ (ih (i + 1))
    · exact Nat.zero_le _

theorem commonSuffixAux_spec (a b : List Line) (aLen da bLen db : Nat) :
    ∀ fuel i j, j < commonSuffixAux a b aLen da bLen db fuel i →
      getLineContent a (da + aLen - (i + j)) = getLineContent b (db + bLen - (i + j)) := by
  intro fuel
  induction fuel with
  | zero => intro i j hj; simp [commonSuffixAux] at hj
  | succ n ih =>
    intro i j hj
    simp only [commonSuffixAux] at hj
    split at hj
    · rename_i heq
      cases j with
      | zero => simpa using heq
      | succ j2 =>
        have := ih (i + 1) j2 (by omega)
        have harith : i + 1 + j2 = i + (j2 + 1) := by omega
        rwa [harith] at this
    · omega

/-! Take/drop helpers used by the branch analyses. -/

theorem take_eq_of_getD (L1 L2 : List Line) (p : Nat) (h1 : p ≤ L1.length) (h2 : p ≤ L2.length)
    (h : ∀ j, j < p → L1.getD j [] = L2.getD j []) : L1.take p = L2.take p := by
  apply List.ext_getElem
  · simp [h1, h2]
  · intro i hi1 hi2
    have hip : i < p := by simp at hi1; omega
    have e := h i hip
    rw [List.getD_eq_getElem L1 [] (by omega), List.getD_eq_getElem L2 [] (by omega)] at e
    simpa [List.getElem_take] using e

theorem drop_suffix_eq (L1 L2 : List Line) (s : Nat) (h1 : s ≤ L1.length) (h2 : s ≤ L2.length)
    (h : ∀ j, j < s → L1.getD (L1.length - 1 - j) [] = L2.getD (L2.length - 1 - j) []) :
    L1.drop (L1.length - s) = L2.drop (L2.length - s) := by
  apply List.ext_getElem
  · simp; omega
  · intro i hi1 hi2
    have his : i < s := by simp at hi1; omega
    have hlen1 : L1.length - s + i < L1.length := by omega
    have hlen2 : L2.length - s + i < L2.length := by omega
    rw [List.getElem_drop, List.getElem_drop,
      ← List.getD_eq_getElem L1 ([] : Line) hlen1, ← List.getD_eq_getElem L2 ([] : Line) hlen2,
      show L1.length - s + i = L1.length - 1 - (s - 1 - i) by omega,
      show L2.length - s + i = L2.length - 1 - (s - 1 - i) by omega]
    exact h (s - 1 - i) (by omega)

theorem take_succ_getD (l : List Line) (i : Nat) (h : i < l.length) :
    l.take i ++ [l.getD i []] = l.take (i + 1) := by
  rw [List.take_succ, List.getElem?_eq_getElem h, List.getD_eq_getElem l [] h]
  rfl

theorem getD_drop_add (l : List Line) (n j : Nat) (h : n + j < l.length) :
    (l.drop n).getD j [] = l.getD (n + j) [] := by
  rw [List.getD_eq_getElem (l.drop n) [] (by simp; omega), List.getD_eq_getElem l [] h,
    List.getElem_drop]

theorem getD_mem (ls : List Line) (i : Nat) (h : i < ls.length) : ls.getD i [] ∈ ls := by
  rw [List.getD_eq_getElem ls [] h]
  exact List.getElem_mem h

theorem take_getLineLength (ls : List Line) (n : Nat) :
    (getLineContent ls n).take (getLineLength ls n) = getLineContent ls n := by
  simp [getLineLength]

theorem drop_getLineLength (ls : List Line) (n : Nat) :
    (getLineContent ls n).drop (getLineLength ls n) = [] := by
  simp [getLineLength]

theorem drop_take_concat (B : List Line) (p : Nat) (hp : p < B.length) :
    (B.drop p).take (B.length - 1 - p) ++ [B.getD (B.length - 1) []] = B.drop p := by
  have hlen : (B.drop p).length = B.length - p := by simp
  have hidx : B.length - 1 - p < (B.drop p).length := by omega
  have hgd : (B.drop p).getD (B.length - 1 - p) [] = B.getD (B.length - 1) [] := by
    rw [getD_drop_add B p (B.length - 1 - p) (by omega)]
    congr 1
    omega
  rw [← hgd, take_succ_getD (B.drop p) (B.length - 1 - p) hidx,
    show B.length - 1 - p + 1 = (B.drop p).length by omega]
  exact List.take_length _

theorem drop_cons_take (B : List Line) (p k : Nat) (hp : p < B.length) (hk : 0 < k) :
    B.getD p [] :: (B.drop (p + 1)).take (k - 1) = (B.drop p).take k := by
  have hd : B.drop p = B[p] :: B.drop (p + 1) := List.drop_eq_getElem_cons hp
  rw [List.getD_eq_getElem B [] hp, hd]
  cases k with
  | zero => omega
  | succ k2 => rw [List.take_succ_cons, Nat.add_sub_cancel]

/-- The buffer value over whole lines `[p+1 .. e+1)` at column 1. -/
theorem getValueInRange_lines (B : List Line) (p e : Nat) (hpe : p ≤ e) (he : e ≤ B.length) :
    getValueInRange B ⟨p + 1, 1, e + 1, 1⟩
      = if p = e then [] else joinLines ((B.drop p).take (e - p) ++ [[]]) := by
  by_cases hpe2 : p = e
  · simp [getValueInRange, hpe2]
  · have hlt : p < e := by omega
    simp only [getValueInRange]
    rw [if_neg (by omega), if_neg hpe2]
    have h1 : (getLineContent B (p + 1)).drop (1 - 1) = B.getD p [] := by
      simp [getLineContent]
    have h2 : (getLineContent B (e + 1)).take (1 - 1) = [] := by simp
    rw [h1, h2, show e + 1 - 1 - (p + 1) = e - p - 1 by omega]
    have h3 : B.getD p [] :: ((B.drop (p + 1)).take (e - p - 1) ++ [[]])
        = (B.drop p).take (e - p) ++ ([[]] : List Line) := by
      rw [← drop_cons_take B p (e - p) (by omega) (by omega)]
      rfl
    rw [h3]

/-- The buffer value from the end of line `p` to the end of the last line. -/
theorem getValueInRange_after_line (B : List Line) (p : Nat) (h1 : 1 ≤ p) (hp : p ≤ B.length) :
    getValueInRange B ⟨p, 1 + getLineLength B p, B.length, 1 + getLineLength B B.length⟩
      = if p = B.length then [] else NL :: joinLines (B.drop p) := by
  by_cases hpn : p = B.length
  · simp only [getValueInRange]
    rw [if_pos hpn, if_pos hpn]
    subst hpn
    rw [show 1 + getLineLength B B.length - 1 = getLineLength B B.length by omega,
      take_getLineLength, drop_getLineLength]
  · have hlt : p < B.length := by omega
    simp only [getValueInRange]
    rw [if_neg hpn, if_neg hpn]
    rw [show 1 + getLineLength B p - 1 = getLineLength B p by omega,
      show 1 + getLineLength B B.length - 1 = getLineLength B B.length by omega,
      drop_getLineLength, take_getLineLength]
    have h2 : getLineContent B B.length = B.getD (B.length - 1) [] := rfl
    rw [h2, drop_take_concat B p hlt]
    cases hK : B.drop p with
    | nil =>
      have hlen2 : (B.drop p).length = B.length - p := by simp
      rw [hK] at hlen2
      simp at hlen2
      omega
    | cons k ks => rw [joinLines_cons_cons]; rfl

/-- The buffer value over the whole content. -/
theorem getValueInRange_whole (B : List Line) (hB : B ≠ []) :
    getValueInRange B ⟨1, 1, B.length, 1 + getLineLength B B.length⟩ = joinLines B := by
  have hBlen : 0 < B.length := List.length_pos.mpr hB
  by_cases hn1 : B.length = 1
  · obtain ⟨b, hb⟩ := List.length_eq_one.mp hn1
    subst hb
    simp [getValueInRange, getLineContent, getLineLength, joinLines]
  · have hn2 : 1 < B.length := by omega
    simp only [getValueInRange]
    rw [if_neg (by omega)]
    rw [show 1 + getLineLength B B.length - 1 = getLineLength B B.length by omega,
      take_getLineLength]
    have h1 : (getLineContent B 1).drop (1 - 1) = B.getD 0 [] := by simp [getLineContent]
    have h2 : getLineContent B B.length = B.getD (B.length - 1) [] := rfl
    rw [h1, h2, drop_take_concat B 1 (by omega)]
    have h4 : B.getD 0 [] :: B.drop 1 = B := by
      have := List.drop_eq_getElem_cons (l := B) (n := 0) (by omega)
      rw [List.getD_eq_getElem B [] (by omega)]
      simpa using this.symm
    rw [h4]

theorem getLineContent_succ (ls : List Line) (k : Nat) :
    getLineContent ls (k + 1) = ls.getD k [] := by
  simp [getLineContent]

/-! The three range branches of `_computeEdits`, each shown to restore the
replacement buffer when applied to the model. -/

theorem applyEdit_full_branch (A B : List Line) (hB : B ≠ [])
    (hnlB : ∀ l ∈ B, NL ∉ l) :
    applyEdit A { range := ⟨1, 1, A.length, getLineMaxColumn A A.length⟩,
                  text := getValueInRange B ⟨1, 1, B.length, 1 + getLineLength B B.length⟩ } = B := by
  rw [getValueInRange_whole B hB]
  simp only [applyEdit, getLineMaxColumn]
  rw [Nat.add_sub_cancel]
  simp [drop_getLineLength, List.drop_length, splitLines_joinLines B hB hnlB]

theorem applyEdit_prefix_branch (A B : List Line) (p : Nat)
    (hnlA : ∀ l ∈ A, NL ∉ l) (hnlB : ∀ l ∈ B, NL ∉ l)
    (hp : 0 < p) (hpm : p ≤ A.length) (hpn : p ≤ B.length)
    (hp_eq : ∀ j, j < p → A.getD j [] = B.getD j []) :
    applyEdit A { range := ⟨p, getLineMaxColumn A p, A.length, getLineMaxColumn A A.length⟩,
                  text := getValueInRange B ⟨p, 1 + getLineLength B p, B.length,
                            1 + getLineLength B B.length⟩ } = B := by
  rw [getValueInRange_after_line B p hp hpn]
  simp only [applyEdit, getLineMaxColumn]
  rw [Nat.add_sub_cancel, Nat.add_sub_cancel, take_getLineLength, drop_getLineLength,
    List.drop_length]
  have hlineA : getLineContent A p = A.getD (p - 1) [] := rfl
  have hmemA : A.getD (p - 1) [] ∈ A := getD_mem A (p - 1) (by omega)
  have htakeA : A.take (p - 1) ++ [A.getD (p - 1) []] = A.take p := by
    rw [take_succ_getD A (p - 1) (by omega)]
    congr 1
    omega
  by_cases hpB : p = B.length
  · rw [if_pos hpB, hlineA]
    rw [show A.getD (p - 1) [] ++ [] ++ [] = A.getD (p - 1) [] by simp]
    rw [splitLines_no_nl _ (hnlA _ hmemA)]
    calc A.take (p - 1) ++ [A.getD (p - 1) []] ++ []
        = A.take p := by rw [List.append_nil, htakeA]
      _ = B.take p := take_eq_of_getD A B p hpm hpn hp_eq
      _ = B := by rw [hpB, List.take_length]
  · have hlt : p < B.length := by omega
    rw [if_neg hpB, hlineA]
    have hdropB : B.drop p ≠ [] := by
      intro hcon
      have hlen2 : (B.drop p).length = B.length - p := by simp
      rw [hcon] at hlen2
      simp at hlen2
      omega
    have hnl2 : ∀ l ∈ B.drop p, NL ∉ l := fun l hl => hnlB l (List.mem_of_mem_drop hl)
    rw [show A.getD (p - 1) [] ++ (NL :: joinLines (B.drop p)) ++ []
        = A.getD (p - 1) [] ++ NL :: joinLines (B.drop p) by simp]
    rw [splitLines_nl_cons _ _ (hnlA _ hmemA), splitLines_joinLines _ hdropB hnl2]
    calc A.take (p - 1) ++ (A.getD (p - 1) [] :: B.drop p) ++ []
        = (A.take (p - 1) ++ [A.getD (p - 1) []]) ++ B.drop p := by simp
      _ = A.take p ++ B.drop p := by rw [htakeA]
      _ = B.take p ++ B.drop p := by rw [take_eq_of_getD A B p hpm hpn hp_eq]
      _ = B := List.take_append_drop p B

theorem applyEdit_suffix_branch (A B : List Line) (p s : Nat)
    (hnlA : ∀ l ∈ A, NL ∉ l) (hnlB : ∀ l ∈ B, NL ∉ l)
    (hsm : p + s ≤ A.length) (hsn : p + s ≤ B.length) (hs : 0 < s)
    (hp_eq : ∀ j, j < p → A.getD j [] = B.getD j [])
    (hs_eq : ∀ j, j < s → A.getD (A.length - 1 - j) [] = B.getD (B.length - 1 - j) []) :
    applyEdit A { range := ⟨p + 1, 1, A.length - s + 1, 1⟩,
                  text := getValueInRange B ⟨p + 1, 1, B.length - s + 1, 1⟩ } = B := by
  rw [getValueInRange_lines B p (B.length - s) (by omega) (by omega)]
  simp only [applyEdit]
  rw [Nat.add_sub_cancel, Nat.sub_self, List.take_zero, List.drop_zero, List.nil_append,
    getLineContent_succ]
  have hAm : A.getD (A.length - s) [] = B.getD (B.length - s) [] := by
    have h := hs_eq (s - 1) (by omega)
    rw [show A.length - 1 - (s - 1) = A.length - s by omega,
      show B.length - 1 - (s - 1) = B.length - s by omega] at h
    exact h
  have hmemAm : A.getD (A.length - s) [] ∈ A := getD_mem A (A.length - s) (by omega)
  have hdropA : A.getD (A.length - s) [] :: A.drop (A.length - s + 1) = A.drop (A.length - s) := by
    rw [List.getD_eq_getElem A [] (by omega)]
    exact (List.drop_eq_getElem_cons (by omega)).symm
  have hdropEq : A.drop (A.length - s) = B.drop (B.length - s) :=
    drop_suffix_eq A B s (by omega) (by omega) hs_eq
  have htakeEq : A.take p = B.take p := take_eq_of_getD A B p (by omega) (by omega) hp_eq
  by_cases hpe : p = B.length - s
  · rw [if_pos hpe]
    rw [show ([] : List Char) ++ A.getD (A.length - s) [] = A.getD (A.length - s) [] by simp]
    rw [splitLines_no_nl _ (hnlA _ hmemAm)]
    calc A.take p ++ [A.getD (A.length - s) []] ++ A.drop (A.length - s + 1)
        = A.take p ++ (A.getD (A.length - s) [] :: A.drop (A.length - s + 1)) := by simp
      _ = A.take p ++ A.drop (A.length - s) := by rw [hdropA]
      _ = B.take p ++ B.drop (B.length - s) := by rw [htakeEq, hdropEq]
      _ = B := by rw [hpe]; exact List.take_append_drop _ B
  · have hplt : p < B.length - s := by omega
    rw [if_neg hpe]
    have hKne : (B.drop p).take (B.length - s - p) ≠ [] := by
      intro hcon
      have hlen2 : ((B.drop p).take (B.length - s - p)).length
          = min (B.length - s - p) (B.length - p) := by simp
      rw [hcon] at hlen2
      simp at hlen2
      omega
    rw [joinLines_append_singleton _ [] hKne]
    rw [show (joinLines ((B.drop p).take (B.length - s - p)) ++ NL :: []) ++ A.getD (A.length - s) []
        = joinLines ((B.drop p).take (B.length - s - p)) ++ NL :: A.getD (A.length - s) [] by simp]
    rw [← joinLines_append_singleton _ _ hKne]
    have hnlK : ∀ l ∈ (B.drop p).take (B.length - s - p) ++ [A.getD (A.length - s) []], NL ∉ l := by
      intro l hl
      rcases List.mem_append.mp hl with h | h
      · exact hnlB l (List.mem_of_mem_drop (List.mem_of_mem_take h))
      · rw [List.mem_singleton.mp h]; exact hnlA _ hmemAm
    rw [splitLines_joinLines _ (by simp) hnlK]
    calc A.take p ++ ((B.drop p).take (B.length - s - p) ++ [A.getD (A.length - s) []])
          ++ A.drop (A.length - s + 1)
        = A.take p ++ (B.drop p).take (B.length - s - p)
            ++ (A.getD (A.length - s) [] :: A.drop (A.length - s + 1)) := by simp
      _ = A.take p ++ (B.drop p).take (B.length - s - p) ++ A.drop (A.length - s) := by
            rw [hdropA]
      _ = B.take p ++ (B.drop p).take (B.length - s - p) ++ B.drop (B.length - s) := by
            rw [htakeEq, hdropEq]
      _ = B.take (p + (B.length - s - p)) ++ B.drop (B.length - s) := by
            rw [List.take_add]
      _ = B := by
            rw [show p + (B.length - s - p) = B.length - s by omega]
            exact List.take_append_drop _ B

/-! Facts about the prefix/suffix counts as `_computeEdits` uses them. -/

theorem commonPrefixLines_le (A B : List Line) :
    commonPrefixLines A B ≤ min A.length B.length :=
  commonPrefixAux_le A B 1 1 (min A.length B.length) 0

theorem commonPrefixLines_spec (A B : List Line) :
    ∀ j, j < commonPrefixLines A B → A.getD j [] = B.getD j [] := by
  intro j hj
  have h := commonPrefixAux_spec A B 1 1 (min A.length B.length) 0 j hj
  rw [show 1 + (0 + j) = j + 1 by omega, getLineContent_succ, getLineContent_succ] at h
  exact h

theorem commonSuffixLines_le (A B : List Line) :
    commonSuffixLines A B
      ≤ min (A.length - commonPrefixLines A B) (B.length - commonPrefixLines A B) :=
  commonSuffixAux_le A B (A.length - commonPrefixLines A B) (commonPrefixLines A B)
    (B.length - commonPrefixLines A B) (commonPrefixLines A B)
    (min (A.length - commonPrefixLines A B) (B.length - commonPrefixLines A B)) 0

theorem commonSuffixLines_spec (A B : List Line) :
    ∀ j, j < commonSuffixLines A B →
      A.getD (A.length - 1 - j) [] = B.getD (B.length - 1 - j) [] := by
  intro j hj
  have hple := commonPrefixLines_le A B
  have hsle := commonSuffixLines_le A B
  have hjm : j < A.length - commonPrefixLines A B := by omega
  have hjn : j < B.length - commonPrefixLines A B := by omega
  have h := commonSuffixAux_spec A B (A.length - commonPrefixLines A B) (commonPrefixLines A B)
    (B.length - commonPrefixLines A B) (commonPrefixLines A B)
    (min (A.length - commonPrefixLines A B) (B.length - commonPrefixLines A B)) 0 j hj
  rw [show commonPrefixLines A B + (A.length - commonPrefixLines A B) - (0 + j)
        = (A.length - 1 - j) + 1 by omega,
    show commonPrefixLines A B + (B.length - commonPrefixLines A B) - (0 + j)
        = (B.length - 1 - j) + 1 by omega,
    getLineContent_succ, getLineContent_succ] at h
  exact h

theorem commonPrefixLines_self (A : List Line) : commonPrefixLines A A = A.length := by
  have h := commonPrefixAux_self A 1 (min A.length A.length) 0
  simpa [commonPrefixLines, commonPrefixFn] using h

/-- The diff result is empty exactly when the two contents are line-for-line
identical. -/
theorem computeEdits_eq_nil_iff (A B : List Line) : computeEdits A B = [] ↔ A = B := by
  constructor
  · intro h
    by_cases hc : A.length = B.length ∧ commonPrefixLines A B = A.length
    · apply List.ext_getElem hc.1
      intro i h1 h2
      have he := commonPrefixLines_spec A B i (by omega)
      rw [List.getD_eq_getElem A [] h1, List.getD_eq_getElem B [] h2] at he
      exact he
    · simp only [computeEdits, if_neg hc] at h
      split at h
      · simp at h
      · split at h <;> simp at h
  · intro h
    subst h
    simp [computeEdits, commonPrefixLines_self A]

end ModelService

namespace ModelService

/-- Claim C1: for every pair of line sequences `A` (the model) and `B` (the
replacement buffer), applying the edit list returned by `_computeEdits(A, B)`
to `A` yields exactly `B`, and the returned edit list is empty if and only if
`A` and `B` are line-for-line identical. -/
theorem computeEdits_roundTrip (A B : List Line) (hA : A ≠ []) (hB : B ≠ [])
    (hnlA : ∀ l ∈ A, NL ∉ l) (hnlB : ∀ l ∈ B, NL ∉ l) :
    applyEdits A (computeEdits A B) = B ∧ (computeEdits A B = [] ↔ A = B) := by
  refine ⟨?_, computeEdits_eq_nil_iff A B⟩
  have hple := commonPrefixLines_le A B
  have hsle := commonSuffixLines_le A B
  by_cases hc : A.length = B.length ∧ commonPrefixLines A B = A.length
  · have hAB : A = B := by
      apply List.ext_getElem hc.1
      intro i h1 h2
      have he := commonPrefixLines_spec A B i (by omega)
      rw [List.getD_eq_getElem A [] h1, List.getD_eq_getElem B [] h2] at he
      exact he
    rw [(computeEdits_eq_nil_iff A B).mpr hAB]
    simpa [applyEdits] using hAB
  · simp only [computeEdits, if_neg hc]
    by_cases hs : 0 < commonSuffixLines A B
    · rw [if_pos hs]
      simp only [applyEdits, List.foldl_cons, List.foldl_nil]
      exact applyEdit_suffix_branch A B (commonPrefixLines A B) (commonSuffixLines A B)
        hnlA hnlB (by omega) (by omega) hs
        (commonPrefixLines_spec A B) (commonSuffixLines_spec A B)
    · rw [if_neg hs]
      by_cases hp : 0 < commonPrefixLines A B
      · rw [if_pos hp]
        simp only [applyEdits, List.foldl_cons, List.foldl_nil]
        exact applyEdit_prefix_branch A B (commonPrefixLines A B) hnlA hnlB hp
          (by omega) (by omega) (commonPrefixLines_spec A B)
      · rw [if_neg hp]
        simp only [applyEdits, List.foldl_cons, List.foldl_nil]
        exact applyEdit_full_branch A B hB hnlB

/-- Witness for C1 at a concrete input: the nonemptiness and no-terminator
hypotheses are discharged at `A = ["a", "b"]`, `B = ["a", "c", "b"]`. -/
theorem computeEdits_roundTrip_witness :
    applyEdits [['a'], ['b']] (computeEdits [['a'], ['b']] [['a'], ['c'], ['b']])
        = [['a'], ['c'], ['b']] ∧
    (computeEdits [['a'], ['b']] [['a'], ['c'], ['b']] = []
        ↔ [['a'], ['b']] = [['a'], ['c'], ['b']]) :=
  computeEdits_roundTrip [['a'], ['b']] [['a'], ['c'], ['b']]
    (by decide) (by decide) (by decide) (by decide)

/-- Claim C7: whenever the computed common suffix (after removing the common
prefix) is nonzero, the single edit produced by `_computeEdits` is whole-line:
its old range spans lines `[prefix+1 .. oldLineCount-suffix+1)` at column 1,
the new range mirrors it in the new content, and its end position (line
`oldLineCount - suffix + 1`, column 1) includes no content of any trailing
common-suffix line; those trailing lines are pairwise identical in `A` and
`B`, hence left untouched. -/
theorem computeEdits_suffix_frame (A B : List Line) (h : 0 < commonSuffixLines A B) :
    computeEdits A B =
      [{ range := ⟨commonPrefixLines A B + 1, 1, A.length - commonSuffixLines A B + 1, 1⟩,
         text := getValueInRange B ⟨commonPrefixLines A B + 1, 1,
                   B.length - commonSuffixLines A B + 1, 1⟩ }] ∧
    (∀ e ∈ computeEdits A B,
      e.range.startLineNumber = commonPrefixLines A B + 1 ∧ e.range.startColumn = 1 ∧
      e.range.endLineNumber = A.length - commonSuffixLines A B + 1 ∧ e.range.endColumn = 1) ∧
    (∀ j, j < commonSuffixLines A B →
      A.getD (A.length - 1 - j) [] = B.getD (B.length - 1 - j) []) := by
  have hsle := commonSuffixLines_le A B
  have hne : ¬ (A.length = B.length ∧ commonPrefixLines A B = A.length) := by
    intro hc
    omega
  refine ⟨?_, ?_, commonSuffixLines_spec A B⟩
  · simp only [computeEdits, if_neg hne, if_pos h]
  · intro e he
    simp only [computeEdits, if_neg hne, if_pos h, List.mem_singleton] at he
    subst he
    exact ⟨rfl, rfl, rfl, rfl⟩

/-- Witness for C7: a pair with common prefix 1 and common suffix 1. -/
theorem computeEdits_suffix_frame_witness :
    0 < commonSuffixLines [['a'], ['x'], ['c']] [['a'], ['y'], ['c']] ∧
    computeEdits [['a'], ['x'], ['c']] [['a'], ['y'], ['c']]
      = [{ range := ⟨2, 1, 3, 1⟩, text := ['y', NL] }] :=
  ⟨by decide, by
    have h := (computeEdits_suffix_frame [['a'], ['x'], ['c']] [['a'], ['y'], ['c']]
      (by decide)).1
    rw [h]
    decide⟩

/-! ### Bulk replacement (`updateModel`): claims C8 and C9 -/

theorem pushStackElement_lines (m : TM) : (pushStackElement m).lines = m.lines := by
  unfold pushStackElement; split <;> rfl

theorem pushStackElement_eol (m : TM) : (pushStackElement m).eol = m.eol := by
  unfold pushStackElement; split <;> rfl

theorem pushStackElement_notifications (m : TM) :
    (pushStackElement m).notifications = m.notifications := by
  unfold pushStackElement; split <;> rfl

theorem pushStackElement_openGroup (m : TM) : (pushStackElement m).openGroup = [] := by
  unfold pushStackElement
  split
  · rename_i hg
    exact List.isEmpty_iff.mp hg
  · rfl

/-- Claim C9: replacing a document with its current content is a no-op —
the staging buffer is content-equal, so no stack element, end-of-line
change, edit, or notification is produced and the state is unchanged. -/
theorem updateModel_idempotent (m : TM) : updateModel m m.lines m.eol = m := by
  simp [updateModel]

/-- Claim C8 (amended): a content-differing replacement happens in one
atomic edit group: the open undo element is exactly one new closed group
holding the end-of-line change (iff the terminator differs) followed by the
single coalesced diff edit (iff the lines differ); the number of
content-change notifications is one per push — one for the edit when the
lines differ plus one more when the terminator also differs (so up to two,
not at most one). -/
theorem updateModel_atomic_group (m : TM) (newLines : List Line) (newEol : EOLSeq)
    (h : ¬ (m.lines = newLines ∧ m.eol = newEol)) :
    (updateModel m newLines newEol).openGroup = [] ∧
    (updateModel m newLines newEol).closedGroups =
      (pushStackElement m).closedGroups ++
        [(if m.eol = newEol then [] else [POp.eolChange]) ++
          (if m.lines = newLines then [] else [POp.editOp])] ∧
    (updateModel m newLines newEol).notifications =
      m.notifications + (if m.eol = newEol then 0 else 1) +
        (if m.lines = newLines then 0 else 1) ∧
    (computeEdits m.lines newLines = [] ↔ m.lines = newLines) := by
  have hedits : computeEdits m.lines newLines = [] ↔ m.lines = newLines :=
    computeEdits_eq_nil_iff m.lines newLines
  refine ⟨?_, ?_, ?_, hedits⟩ <;>
  · rcases m with ⟨Ls, E, CG, OG, N⟩
    simp only at h ⊢
    by_cases he : E = newEol <;> by_cases hl : Ls = newLines
    · exact absurd ⟨hl, he⟩ h
    all_goals
      first
      | (subst hl
         have hnil : computeEdits Ls Ls = [] := (computeEdits_eq_nil_iff Ls Ls).mpr rfl
         cases OG <;>
           simp [updateModel, pushStackElement, pushEOL, pushEditOperations, he, hnil])
      | (have hne2 : computeEdits Ls newLines ≠ [] :=
           fun hc => hl ((computeEdits_eq_nil_iff Ls newLines).mp hc)
         obtain ⟨e, es, hcons⟩ := List.exists_cons_of_ne_nil hne2
         cases OG <;>
           simp [updateModel, pushStackElement, pushEOL, pushEditOperations, he, hl, hcons])

/-- Counterexample to C8 as stated: when both the terminator and the text
differ, the replacement fires two content-change notifications (one from
the end-of-line push, one from the edit push), not at most one — though it
does produce exactly one undo group. -/
theorem updateModel_two_notifications :
    (updateModel ⟨[['a']], EOLSeq.LF, [], [], 0⟩ [['b']] EOLSeq.CRLF).notifications = 2 ∧
    (updateModel ⟨[['a']], EOLSeq.LF, [], [], 0⟩ [['b']] EOLSeq.CRLF).closedGroups
      = [[POp.eolChange, POp.editOp]] := by
  constructor <;> rfl

/-- Witness for the amended C8 at a concrete input where only the text
differs: one new undo group holding the single edit, one notification. -/
theorem updateModel_atomic_group_witness :
    (updateModel ⟨[['a'], ['b']], EOLSeq.LF, [], [], 0⟩ [['a'], ['c']] EOLSeq.LF).openGroup
        = [] ∧
    (updateModel ⟨[['a'], ['b']], EOLSeq.LF, [], [], 0⟩ [['a'], ['c']] EOLSeq.LF).closedGroups
        = [[POp.editOp]] ∧
    (updateModel ⟨[['a'], ['b']], EOLSeq.LF, [], [], 0⟩ [['a'], ['c']] EOLSeq.LF).notifications
        = 1 := by
  have h := updateModel_atomic_group ⟨[['a'], ['b']], EOLSeq.LF, [], [], 0⟩ [['a'], ['c']]
    EOLSeq.LF (by simp)
  refine ⟨h.1, ?_, ?_⟩
  · rw [h.2.1]; rfl
  · rw [h.2.2.1]; rfl

/-! ### Token decoding: claims C5 and C6 -/

/-- Claim C5: with legend `{types := ["comment"], modifiers := ["readonly"]}`
and raw tuple `(0,0,5,0,1)`, decode resolves type "comment" and modifiers
`["readonly"]` (expanding bit 0 upward only while the remaining set is
nonzero and names remain); if the theme resolves the pair the tuple is
emitted with its metadata, and if the theme returns absent the tuple is
dropped and the decoded output is empty. -/
theorem decode_single_example (theme : Option String → List String → Option Nat) :
    (SemanticColoringLegend.mk ["comment"] ["readonly"]).tokenTypes[(0 : Nat)]?
        = some "comment" ∧
    expandModifiersAux ["readonly"] 1 = ["readonly"] ∧
    (∀ md, theme (some "comment") ["readonly"] = some md →
      decodeTokens ⟨["comment"], ["readonly"]⟩ theme [0, 0, 5, 0, 1] = [0, 0, 5, md]) ∧
    (theme (some "comment") ["readonly"] = none →
      decodeTokens ⟨["comment"], ["readonly"]⟩ theme [0, 0, 5, 0, 1] = []) := by
  refine ⟨rfl, rfl, ?_, ?_⟩
  · intro md hmd
    simp [decodeTokens, expandModifiersAux, hmd]
  · intro hnone
    simp [decodeTokens, expandModifiersAux, hnone]

/-- Witness for C5 under one resolving and one non-resolving theme. -/
theorem decode_single_example_witness :
    decodeTokens ⟨["comment"], ["readonly"]⟩ themeYes [0, 0, 5, 0, 1] = [0, 0, 5, 7] ∧
    decodeTokens ⟨["comment"], ["readonly"]⟩ themeNo [0, 0, 5, 0, 1] = [] :=
  ⟨(decode_single_example themeYes).2.2.1 7 (by decide),
   (decode_single_example themeNo).2.2.2 rfl⟩

theorem decodeTokens_eq_flatten_aux (legend : SemanticColoringLegend)
    (theme : Option String → List String → Option Nat) :
    ∀ k src, src.length ≤ k →
      decodeTokens legend theme src =
        ((chunks5 src).filterMap (fun t => (resolveTok legend theme t).map
          (fun md => [t.deltaLine, t.startChar, t.endChar, md]))).flatten := by
  intro k
  induction k with
  | zero =>
    intro src hle
    have hz : src = [] := List.length_eq_zero.mp (Nat.le_zero.mp hle)
    subst hz
    simp [decodeTokens, chunks5]
  | succ k ih =>
    intro src hle
    match src with
    | [] => simp [decodeTokens, chunks5]
    | [a] => simp [decodeTokens, chunks5]
    | [a, b] => simp [decodeTokens, chunks5]
    | [a, b, c] => simp [decodeTokens, chunks5]
    | [a, b, c, d] => simp [decodeTokens, chunks5]
    | a :: b :: c :: d :: e :: rest =>
      have hr := ih rest (by simp at hle; omega)
      simp only [decodeTokens, chunks5, List.filterMap_cons]
      cases htm : theme legend.tokenTypes[d]? (expandModifiersAux legend.tokenModifiers e) with
      | none => simp [resolveTok, htm, hr]
      | some md => simp [resolveTok, htm, hr]

/-- The decode loop, characterized per tuple: it emits, in source order,
exactly the 4-field blocks of the tuples whose style resolves. -/
theorem decodeTokens_eq_flatten (legend : SemanticColoringLegend)
    (theme : Option String → List String → Option Nat) (src : List Nat) :
    decodeTokens legend theme src =
      ((chunks5 src).filterMap (fun t => (resolveTok legend theme t).map
        (fun md => [t.deltaLine, t.startChar, t.endChar, md]))).flatten :=
  decodeTokens_eq_flatten_aux legend theme src.length src (Nat.le_refl _)

theorem flatten_filterMap_four (ts : List Tok5) (g : Tok5 → Option Nat) :
    ((ts.filterMap (fun t => (g t).map
      (fun md => [t.deltaLine, t.startChar, t.endChar, md]))).flatten).length
      = 4 * ts.countP (fun t => (g t).isSome) := by
  induction ts with
  | nil => simp
  | cons t ts ih =>
    cases hg : g t <;> simp [List.filterMap_cons, hg, ih, List.countP_cons] <;> omega

/-- Claim C6: every tuple whose (type, modifiers) style the theme cannot
resolve is dropped entirely, the emitted 4-field array is dense (length
exactly 4 times the number of kept tuples, no holes), and kept tuples
preserve the source order. -/
theorem decode_dense_ordered (legend : SemanticColoringLegend)
    (theme : Option String → List String → Option Nat) (src : List Nat) :
    decodeTokens legend theme src =
      ((chunks5 src).filterMap (fun t => (resolveTok legend theme t).map
        (fun md => [t.deltaLine, t.startChar, t.endChar, md]))).flatten ∧
    (decodeTokens legend theme src).length
      = 4 * (chunks5 src).countP (fun t => (resolveTok legend theme t).isSome) := by
  have h := decodeTokens_eq_flatten legend theme src
  refine ⟨h, ?_⟩
  rw [h, flatten_filterMap_four]

/-! ### Scheduler lemmas -/

theorem setSemanticTokens_proj (ctx : SchedCtx) (s : SchedState)
    (tokens : Option (List RawArea)) (pendingChanges : List ChangeEvent) :
    (setSemanticTokens ctx s tokens pendingChanges).cts = s.cts ∧
    (setSemanticTokens ctx s tokens pendingChanges).outstanding = s.outstanding ∧
    (setSemanticTokens ctx s tokens pendingChanges).isDisposed = s.isDisposed ∧
    (setSemanticTokens ctx s tokens pendingChanges).startedCalls = s.startedCalls ∧
    (setSemanticTokens ctx s tokens pendingChanges).pending = s.pending ∧
    (setSemanticTokens ctx s tokens pendingChanges).errorsLogged = s.errorsLogged ∧
    (setSemanticTokens ctx s tokens pendingChanges).hasProvider = s.hasProvider := by
  rcases s with ⟨d, hpv, ta, c, o, pn, cr, mw, sc, el, rr, td, cc⟩
  cases cr <;> cases d <;> cases tokens <;>
    simp [setSemanticTokens] <;> (try split) <;> simp

theorem step_contentChange_proj (ctx : SchedCtx) (s : SchedState) (c : ChangeEvent) :
    (step ctx s (SchedEvent.contentChange c)).cts = s.cts ∧
    (step ctx s (SchedEvent.contentChange c)).outstanding = s.outstanding ∧
    (step ctx s (SchedEvent.contentChange c)).isDisposed = s.isDisposed ∧
    (step ctx s (SchedEvent.contentChange c)).startedCalls = s.startedCalls := by
  rcases s with ⟨d, hpv, ta, cts, o, pn, cr, mw, sc, el, rr, td, cc⟩
  cases d <;> simp [step] <;> (try split) <;> simp

theorem step_registryChange_proj (ctx : SchedCtx) (s : SchedState) (b : Bool) :
    (step ctx s (SchedEvent.registryChange b)).cts = s.cts ∧
    (step ctx s (SchedEvent.registryChange b)).outstanding = s.outstanding ∧
    (step ctx s (SchedEvent.registryChange b)).isDisposed = s.isDisposed ∧
    (step ctx s (SchedEvent.registryChange b)).startedCalls = s.startedCalls := by
  rcases s with ⟨d, hpv, ta, cts, o, pn, cr, mw, sc, el, rr, td, cc⟩
  cases d <;> simp [step]

theorem step_themeChange_proj (ctx : SchedCtx) (s : SchedState) :
    (step ctx s SchedEvent.themeChange).cts = s.cts ∧
    (step ctx s SchedEvent.themeChange).outstanding = s.outstanding ∧
    (step ctx s SchedEvent.themeChange).isDisposed = s.isDisposed ∧
    (step ctx s SchedEvent.themeChange).startedCalls = s.startedCalls := by
  rcases s with ⟨d, hpv, ta, cts, o, pn, cr, mw, sc, el, rr, td, cc⟩
  cases d <;> simp [step]

theorem step_elapse_inflight (ctx : SchedCtx) (s : SchedState) (hc : s.cts = true) :
    step ctx s SchedEvent.debounceElapse
      = if s.isDisposed || !s.timerArmed then s else { s with timerArmed := false } := by
  rcases s with ⟨d, hpv, ta, cts, o, pn, cr, mw, sc, el, rr, td, cc⟩
  simp only at hc
  subst hc
  cases d <;> cases ta <;> simp [step, fetchSemanticTokensNow]

theorem step_preserves_inv (ctx : SchedCtx) (s : SchedState) (e : SchedEvent)
    (h : SchedInv s) : SchedInv (step ctx s e) := by
  obtain ⟨h1, h2, h3⟩ := h
  cases e with
  | contentChange c =>
    have hp := step_contentChange_proj ctx s c
    exact ⟨hp.2.1 ▸ h1, fun hx => hp.2.1 ▸ h2 (hp.1 ▸ hx),
      fun hd hx => hp.1 ▸ h3 (hp.2.2.1 ▸ hd) (hp.2.1 ▸ hx)⟩
  | registryChange b =>
    have hp := step_registryChange_proj ctx s b
    exact ⟨hp.2.1 ▸ h1, fun hx => hp.2.1 ▸ h2 (hp.1 ▸ hx),
      fun hd hx => hp.1 ▸ h3 (hp.2.2.1 ▸ hd) (hp.2.1 ▸ hx)⟩
  | themeChange =>
    have hp := step_themeChange_proj ctx s
    exact ⟨hp.2.1 ▸ h1, fun hx => hp.2.1 ▸ h2 (hp.1 ▸ hx),
      fun hd hx => hp.1 ▸ h3 (hp.2.2.1 ▸ hd) (hp.2.1 ▸ hx)⟩
  | debounceElapse =>
    rcases s with ⟨d, hpv, ta, cts, o, pn, cr, mw, sc, el, rr, td, cc⟩
    simp only at h1 h2 h3
    cases d <;> cases ta <;> cases cts <;> cases hpv <;>
      simp_all [step, fetchSemanticTokensNow, SchedInv] <;> omega
  | responseArrive res =>
    dsimp only [step]
    have hp := setSemanticTokens_proj ctx
      { s with cts := false, outstanding := s.outstanding - 1 } res s.pending
    refine ⟨?_, ?_, ?_⟩
    · rw [hp.2.1]; simp; omega
    · rw [hp.1]; simp
    · rw [hp.2.2.1, hp.2.1, hp.1]
      simp
      omega
  | responseError =>
    dsimp only [step]
    have hp := setSemanticTokens_proj ctx
      { s with errorsLogged := s.errorsLogged + 1, cts := false, outstanding := s.outstanding - 1 }
      none s.pending
    refine ⟨?_, ?_, ?_⟩
    · rw [hp.2.1]; simp; omega
    · rw [hp.1]; simp
    · rw [hp.2.2.1, hp.2.1, hp.1]
      simp
      omega
  | dispose =>
    rcases s with ⟨d, hpv, ta, cts, o, pn, cr, mw, sc, el, rr, td, cc⟩
    simp only at h1 h2 h3
    cases cts <;> cases cr <;> simp_all [step, SchedInv]

theorem run_preserves_inv (ctx : SchedCtx) (evs : List SchedEvent) (s : SchedState)
    (h : SchedInv s) : SchedInv (run ctx s evs) := by
  induction evs generalizing s with
  | nil => exact h
  | cons e evs ih => exact ih (step ctx s e) (step_preserves_inv ctx s e h)

theorem initState_inv (b : Bool) : SchedInv (initState b) := by
  refine ⟨by simp [initState], by simp [initState], by simp [initState]⟩

theorem setSemanticTokens_timerArmed_true (ctx : SchedCtx) (s : SchedState)
    (areas : List RawArea) (pendingChanges : List ChangeEvent)
    (hd : s.isDisposed = false) (hpn : 0 < pendingChanges.length) :
    (setSemanticTokens ctx s (some areas) pendingChanges).timerArmed = true := by
  rcases s with ⟨d, hpv, ta, c0, o, pn, cr, mw, sc, el, rr, td, cc⟩
  simp only at hd
  subst hd
  cases cr <;> simp [setSemanticTokens, hpn]

theorem step_contentChange_inflight (ctx : SchedCtx) (s : SchedState) (c : ChangeEvent)
    (hnd : s.isDisposed = false) (hout : 1 ≤ s.outstanding) :
    step ctx s (SchedEvent.contentChange c)
      = { s with pending := s.pending ++ [c], timerArmed := true } := by
  rcases s with ⟨d, hpv, ta, c0, o, pn, cr, mw, sc, el, rr, td, cc⟩
  simp only at hnd hout
  subst hnd
  simp [step, hout]

/-- Claim C2 (amended): at most one provider call is ever outstanding —
triggering while in-flight never starts a second call (content changes,
registry changes, theme changes, and even a debounce elapse during flight
leave the started-call count unchanged) — and a content-change trigger
while in-flight leaves exactly one follow-up fetch cycle armed once a
non-null response is processed, whether or not the debounce elapsed
mid-flight.  (A registry/theme trigger whose debounce elapses mid-flight is
dropped: see the counterexample.) -/
theorem scheduler_single_flight (ctx : SchedCtx) (b bp : Bool) (evs : List SchedEvent)
    (s : SchedState) (c : ChangeEvent) (r : List RawArea)
    (hcts : s.cts = true) (hnd : s.isDisposed = false) (hout : s.outstanding = 1) :
    (run ctx (initState b) evs).outstanding ≤ 1 ∧
    (step ctx s (SchedEvent.contentChange c)).startedCalls = s.startedCalls ∧
    (step ctx s SchedEvent.themeChange).startedCalls = s.startedCalls ∧
    (step ctx s (SchedEvent.registryChange bp)).startedCalls = s.startedCalls ∧
    (step ctx s SchedEvent.debounceElapse).startedCalls = s.startedCalls ∧
    (run ctx s [SchedEvent.contentChange c, SchedEvent.responseArrive (some r)]).timerArmed
        = true ∧
    (run ctx s [SchedEvent.contentChange c, SchedEvent.debounceElapse,
        SchedEvent.responseArrive (some r)]).timerArmed = true := by
  refine ⟨(run_preserves_inv ctx evs (initState b) (initState_inv b)).1,
    (step_contentChange_proj ctx s c).2.2.2,
    (step_themeChange_proj ctx s).2.2.2,
    (step_registryChange_proj ctx s bp).2.2.2, ?_, ?_, ?_⟩
  · rw [step_elapse_inflight ctx s hcts]
    split <;> rfl
  · have h1 := step_contentChange_inflight ctx s c hnd (by omega)
    simp only [run, List.foldl_cons, List.foldl_nil, h1]
    dsimp only [step]
    exact setSemanticTokens_timerArmed_true ctx _ r _ (by simp [hnd]) (by simp)
  · have h1 := step_contentChange_inflight ctx s c hnd (by omega)
    simp only [run, List.foldl_cons, List.foldl_nil, h1]
    rw [step_elapse_inflight ctx _ (by simp [hcts]), if_neg (by simp [hnd])]
    dsimp only [step]
    exact setSemanticTokens_timerArmed_true ctx _ r _ (by simp [hnd]) (by simp)

/-- Counterexample to C2 as stated: a theme-change trigger while a request
is in flight, whose debounce elapses before the response arrives, schedules
no follow-up fetch cycle at all once the request completes — the elapse is
swallowed by the early return, nothing is pending, and the timer stays
disarmed (and no second call was ever started). -/
theorem scheduler_followup_lost :
    (run ctxTriv (initState true) [SchedEvent.debounceElapse]).cts = true ∧
    (run ctxTriv (initState true)
        [SchedEvent.debounceElapse, SchedEvent.themeChange, SchedEvent.debounceElapse,
         SchedEvent.responseArrive (some [])]).outstanding = 0 ∧
    (run ctxTriv (initState true)
        [SchedEvent.debounceElapse, SchedEvent.themeChange, SchedEvent.debounceElapse,
         SchedEvent.responseArrive (some [])]).timerArmed = false ∧
    (run ctxTriv (initState true)
        [SchedEvent.debounceElapse, SchedEvent.themeChange, SchedEvent.debounceElapse,
         SchedEvent.responseArrive (some [])]).startedCalls = 1 ∧
    (run ctxTriv (initState true)
        [SchedEvent.debounceElapse, SchedEvent.themeChange, SchedEvent.debounceElapse,
         SchedEvent.responseArrive (some [])]).pending = [] := by
  refine ⟨by decide, by decide, by decide, by decide, by decide⟩

/-- Witness for the amended C2 at a concrete in-flight state. -/
theorem scheduler_single_flight_witness :
    (run ctxTriv (initState true) [SchedEvent.debounceElapse]).outstanding ≤ 1 ∧
    (step ctxTriv (run ctxTriv (initState true) [SchedEvent.debounceElapse])
        (SchedEvent.contentChange prependX)).startedCalls
      = (run ctxTriv (initState true) [SchedEvent.debounceElapse]).startedCalls ∧
    (run ctxTriv (run ctxTriv (initState true) [SchedEvent.debounceElapse])
        [SchedEvent.contentChange prependX, SchedEvent.responseArrive (some [])]).timerArmed
      = true := by
  have h := scheduler_single_flight ctxTriv true true [SchedEvent.debounceElapse]
    (run ctxTriv (initState true) [SchedEvent.debounceElapse]) prependX []
    (by decide) (by decide) (by decide)
  exact ⟨h.1, h.2.1, h.2.2.2.2.2.1⟩

theorem foldl_changes_per_area (f : DecArea → SingleChange → DecArea) :
    ∀ (pending : List ChangeEvent) (res : List DecArea),
      pending.foldl (fun r change => r.map (fun area => change.changes.foldl f area)) res
        = res.map (fun area => ((pending.map (fun ch => ch.changes)).flatten).foldl f area) := by
  intro pending
  induction pending with
  | nil => intro res; simp
  | cons c cs ih =>
    intro res
    simp only [List.foldl_cons, ih, List.map_map, List.map_cons, List.flatten_cons,
      List.foldl_append]
    rfl

/-- Claim C3: when a provider response is processed with a nonempty list of
accumulated content-change events, every accumulated edit is applied to each
decoded area in the order the edits were observed (per area, the fold over
the concatenation of all change batches in arrival order), and a refetch is
armed. -/
theorem reconcile_applies_all_edits (ctx : SchedCtx) (s : SchedState)
    (areas : List RawArea) (pending : List ChangeEvent)
    (hnd : s.isDisposed = false) (hne : pending ≠ []) :
    (setSemanticTokens ctx s (some areas) pending).timerArmed = true ∧
    (setSemanticTokens ctx s (some areas) pending).modelWrites
      = s.modelWrites ++
        [some ((areas.map (fun a =>
            DecArea.mk a.line (decodeTokens ctx.legend ctx.theme a.data))).map
          (fun area => ((pending.map (fun ch => ch.changes)).flatten).foldl
            (fun ar sc => ctx.applyAreaEdit ar sc.range sc.text) area))] := by
  have hpl : 0 < pending.length := by
    cases pending with
    | nil => exact absurd rfl hne
    | cons a t => simp
  refine ⟨setSemanticTokens_timerArmed_true ctx s areas pending hnd hpl, ?_⟩
  rcases s with ⟨d, hpv, ta, c0, o, pn, cr, mw, sc, el, rr, td, cc⟩
  simp only at hnd
  subst hnd
  cases cr <;>
    simp [setSemanticTokens, hpl, foldl_changes_per_area]

/-- Witness for C3: the spec's reconcile example — document "abcde", one
decoded run (0,0,3,77) on line 1, a prepend of "X" at columns 1-1
accumulated during the fetch; the reconciled run shifts both columns by the
inserted length and a refetch is armed. -/
theorem reconcile_applies_all_edits_witness :
    (setSemanticTokens ctxShift (initState true)
        (some [⟨1, [0, 0, 3, 0, 0]⟩]) [prependX]).timerArmed = true ∧
    (setSemanticTokens ctxShift (initState true)
        (some [⟨1, [0, 0, 3, 0, 0]⟩]) [prependX]).modelWrites
      = [some [⟨1, [0, 1, 4, 77]⟩]] := by
  have h := reconcile_applies_all_edits ctxShift (initState true)
    [⟨1, [0, 0, 3, 0, 0]⟩] [prependX] rfl (by decide)
  refine ⟨h.1, ?_⟩
  rw [h.2]
  decide

theorem setSemanticTokens_errorsLogged_comm (ctx : SchedCtx) (s : SchedState)
    (tokens : Option (List RawArea)) (pendingChanges : List ChangeEvent) (n : Nat) :
    setSemanticTokens ctx { s with errorsLogged := n } tokens pendingChanges
      = { setSemanticTokens ctx s tokens pendingChanges with errorsLogged := n } := by
  rcases s with ⟨d, hpv, ta, c0, o, pn, cr, mw, sc, el, rr, td, cc⟩
  cases cr <;> cases d <;> cases tokens <;>
    simp [setSemanticTokens] <;> (try split) <;> simp_all

theorem setSemanticTokens_none_currentResponse (ctx : SchedCtx) (s : SchedState)
    (pendingChanges : List ChangeEvent) :
    (setSemanticTokens ctx s none pendingChanges).currentResponse = none := by
  rcases s with ⟨d, hpv, ta, c0, o, pn, cr, mw, sc, el, rr, td, cc⟩
  cases cr <;> cases d <;> simp [setSemanticTokens]

/-- Claim C4 (amended): a failed provider request is logged to the
unexpected-error channel and is otherwise handled exactly like a null
successful response: the in-flight state is cleared and the stored response
is released — but edits accumulated during the failed request do NOT
immediately re-arm the debounce window (the null-response early return
skips the re-arm; a follow-up happens only if the content-change trigger's
own debounce is still armed — see the counterexample). -/
theorem provider_error_like_empty (ctx : SchedCtx) (s : SchedState) :
    step ctx s SchedEvent.responseError
      = { step ctx s (SchedEvent.responseArrive none) with
          errorsLogged := (step ctx s (SchedEvent.responseArrive none)).errorsLogged + 1 } ∧
    (step ctx s SchedEvent.responseError).errorsLogged = s.errorsLogged + 1 ∧
    (step ctx s SchedEvent.responseError).cts = false ∧
    (step ctx s SchedEvent.responseError).currentResponse = none := by
  have hel : (step ctx s (SchedEvent.responseArrive none)).errorsLogged = s.errorsLogged := by
    dsimp only [step]
    exact (setSemanticTokens_proj ctx _ none _).2.2.2.2.2.1
  refine ⟨?_, ?_, ?_, ?_⟩
  · rw [hel]
    dsimp only [step]
    exact setSemanticTokens_errorsLogged_comm ctx
      { s with cts := false, outstanding := s.outstanding - 1 } none s.pending
      (s.errorsLogged + 1)
  · dsimp only [step]
    exact (setSemanticTokens_proj ctx _ none _).2.2.2.2.2.1
  · dsimp only [step]
    exact (setSemanticTokens_proj ctx _ none _).1
  · dsimp only [step]
    exact setSemanticTokens_none_currentResponse ctx _ _

/-- Counterexample to C4 as stated: edits accumulated during a failed
request whose debounce elapsed mid-flight are not honored — the error path
clears in-flight state and logs, but the debounce window is NOT re-armed
and the scheduler settles to idle. -/
theorem provider_error_no_rearm :
    (run ctxTriv (initState true)
        [SchedEvent.debounceElapse, SchedEvent.contentChange prependX,
         SchedEvent.debounceElapse]).pending ≠ [] ∧
    (run ctxTriv (initState true)
        [SchedEvent.debounceElapse, SchedEvent.contentChange prependX,
         SchedEvent.debounceElapse]).cts = true ∧
    (run ctxTriv (initState true)
        [SchedEvent.debounceElapse, SchedEvent.contentChange prependX,
         SchedEvent.debounceElapse, SchedEvent.responseError]).errorsLogged = 1 ∧
    (run ctxTriv (initState true)
        [SchedEvent.debounceElapse, SchedEvent.contentChange prependX,
         SchedEvent.debounceElapse, SchedEvent.responseError]).cts = false ∧
    (run ctxTriv (initState true)
        [SchedEvent.debounceElapse, SchedEvent.contentChange prependX,
         SchedEvent.debounceElapse, SchedEvent.responseError]).timerArmed = false := by
  refine ⟨by decide, by decide, by decide, by decide, by decide⟩

/-- Claim C10: after disposal, processing a provider response stores
nothing and writes nothing to the document's token store — the stored
response was already released by disposal (released exactly once when one
was present), the incoming result is disposed rather than stored, and a
second dispose changes nothing (no further cancellation or release). -/
theorem disposed_response_isolation (ctx : SchedCtx) (s : SchedState) (r : List RawArea) :
    (step ctx s SchedEvent.dispose).isDisposed = true ∧
    (step ctx s SchedEvent.dispose).currentResponse = none ∧
    (step ctx s SchedEvent.dispose).cts = false ∧
    (s.currentResponse ≠ none →
      (step ctx s SchedEvent.dispose).responsesReleased = s.responsesReleased + 1) ∧
    (step ctx (step ctx s SchedEvent.dispose) (SchedEvent.responseArrive (some r))).modelWrites
      = (step ctx s SchedEvent.dispose).modelWrites ∧
    (step ctx (step ctx s SchedEvent.dispose)
        (SchedEvent.responseArrive (some r))).currentResponse = none ∧
    (step ctx (step ctx s SchedEvent.dispose) (SchedEvent.responseArrive (some r))).tokensDisposed
      = (step ctx s SchedEvent.dispose).tokensDisposed + 1 ∧
    step ctx (step ctx s SchedEvent.dispose) SchedEvent.dispose = step ctx s SchedEvent.dispose := by
  rcases s with ⟨d, hpv, ta, c0, o, pn, cr, mw, sc, el, rr, td, cc⟩
  cases cr <;> cases c0 <;>
    simp [step, setSemanticTokens]

/-- Witness for C10 at a state holding a stored response with a request in
flight. -/
theorem disposed_response_isolation_witness :
    (step ctxTriv respState SchedEvent.dispose).responsesReleased = 1 ∧
    (step ctxTriv (step ctxTriv respState SchedEvent.dispose)
        (SchedEvent.responseArrive (some []))).modelWrites
      = (step ctxTriv respState SchedEvent.dispose).modelWrites ∧
    step ctxTriv (step ctxTriv respState SchedEvent.dispose) SchedEvent.dispose
      = step ctxTriv respState SchedEvent.dispose := by
  have h := disposed_response_isolation ctxTriv respState []
  refine ⟨?_, h.2.2.2.2.1, h.2.2.2.2.2.2.2⟩
  rw [h.2.2.2.1 (by decide)]
  rfl

end ModelService
